import Mathlib

/-!
Verification of the 3D container packing core: free-space management,
multi-start greedy placement, staging layout, and the interactive
collision / snapping logic.  Numbers are modelled as rationals; the
JavaScript host function `Math.sin` (used only as a deterministic noise
source for the RANDOM_WEIGHTED sort strategy) is modelled as an
arbitrary function parameter `jsSin`, so every theorem below holds for
every possible behaviour of the host's sine.
-/

namespace Packing

/-- 3D dimensions (length ↔ x axis, height ↔ y axis, width ↔ z axis). -/
structure Dimensions where
  length : ℚ
  width : ℚ
  height : ℚ
deriving DecidableEq, Repr

/-- A corner position in container coordinates. -/
structure Vec3 where
  x : ℚ
  y : ℚ
  z : ℚ
deriving DecidableEq, Repr

/-- Cargo item record (the fields the packing core reads and writes). -/
structure CargoItem where
  id : String
  dimensions : Dimensions
  position : Vec3
  isValid : Bool
deriving DecidableEq, Repr

/-- A space block: origin (x, y, z) plus extents (l, h, w). -/
structure Box where
  x : ℚ
  y : ℚ
  z : ℚ
  l : ℚ
  h : ℚ
  w : ℚ
deriving DecidableEq, Repr

/-- Open-interval AABB intersection test (`boxIntersect` in the source). -/
def boxIntersect (a b : Box) : Prop :=
  a.x < b.x + b.l ∧ a.x + a.l > b.x ∧
  a.y < b.y + b.h ∧ a.y + a.h > b.y ∧
  a.z < b.z + b.w ∧ a.z + a.w > b.z

instance (a b : Box) : Decidable (boxIntersect a b) := by
  unfold boxIntersect; infer_instance

/-- Inclusive containment of `inner` in `outer` (`contains` in the source). -/
def contains (outer inner : Box) : Prop :=
  outer.x ≤ inner.x ∧ outer.y ≤ inner.y ∧ outer.z ≤ inner.z ∧
  outer.x + outer.l ≥ inner.x + inner.l ∧
  outer.y + outer.h ≥ inner.y + inner.h ∧
  outer.z + outer.w ≥ inner.z + inner.w

instance (a b : Box) : Decidable (contains a b) := by
  unfold contains; infer_instance

/-- The AABB occupied by an item (corner position plus dimensions). -/
def itemBox (it : CargoItem) : Box :=
  { x := it.position.x, y := it.position.y, z := it.position.z,
    l := it.dimensions.length, h := it.dimensions.height, w := it.dimensions.width }

/-- The epsilon-tolerant AABB overlap test used by the collision check
(epsilon = 1, touching faces permitted). -/
def overlapsEps (a b : Box) : Prop :=
  a.x < b.x + b.l - 1 ∧ a.x + a.l > b.x + 1 ∧
  a.y < b.y + b.h - 1 ∧ a.y + a.h > b.y + 1 ∧
  a.z < b.z + b.w - 1 ∧ a.z + a.w > b.z + 1

instance (a b : Box) : Decidable (overlapsEps a b) := by
  unfold overlapsEps; infer_instance

/-- The anonymous coordinate record passed to `checkCollisionWithCoords`. -/
structure CollisionTarget where
  x : ℚ
  y : ℚ
  z : ℚ
  l : ℚ
  h : ℚ
  w : ℚ
  id : String

/-- The AABB of a collision target. -/
def targetBox (t : CollisionTarget) : Box :=
  { x := t.x, y := t.y, z := t.z, l := t.l, h := t.h, w := t.w }

/-- `checkCollisionWithCoords` from the source: true when a corner
coordinate is negative, or when the target's AABB overlaps (with epsilon
tolerance) the AABB of any other item with a different id.  The
`container` argument is read nowhere in the body. -/
def checkCollisionWithCoords (target : CollisionTarget) (others : List CargoItem)
    (container : Dimensions) : Bool :=
  if target.x < 0 ∨ target.y < 0 ∨ target.z < 0 then true
  else others.any (fun other =>
    if other.id = target.id then false
    else decide (overlapsEps (targetBox target) (itemBox other)))

/-- `checkCollision` from the source: wraps `checkCollisionWithCoords`. -/
def checkCollision (item : CargoItem) (others : List CargoItem)
    (container : Dimensions) : Bool :=
  checkCollisionWithCoords
    { x := item.position.x, y := item.position.y, z := item.position.z,
      l := item.dimensions.length, h := item.dimensions.height,
      w := item.dimensions.width, id := item.id } others container

/-- One neighbour pass of the magnetic snapping: the axis conditions are
applied sequentially, exactly in source order, each reading the value
left by the previous one. -/
def snapNeighbor (dims : Dimensions) (threshold : ℚ) (p : Vec3) (other : CargoItem) : Vec3 :=
  let ox := other.position.x
  let oy := other.position.y
  let oz := other.position.z
  let ol := other.dimensions.length
  let oh := other.dimensions.height
  let ow := other.dimensions.width
  let x0 := p.x
  let x1 := if |x0 - (ox + ol)| < threshold then ox + ol else x0
  let x2 := if |x1 + dims.length - ox| < threshold then ox - dims.length else x1
  let x3 := if |x2 - ox| < threshold then ox else x2
  let x4 := if |x3 + dims.length - (ox + ol)| < threshold then ox + ol - dims.length else x3
  let y0 := p.y
  let y1 := if |y0 - (oy + oh)| < threshold then oy + oh else y0
  let y2 := if |y1 + dims.height - oy| < threshold then oy - dims.height else y1
  let z0 := p.z
  let z1 := if |z0 - (oz + ow)| < threshold then oz + ow else z0
  let z2 := if |z1 + dims.width - oz| < threshold then oz - dims.width else z1
  let z3 := if |z2 - oz| < threshold then oz else z2
  let z4 := if |z3 + dims.width - (oz + ow)| < threshold then oz + ow - dims.width else z3
  ⟨x4, y2, z4⟩

/-- `getSnappingPosition` from the source: snap each axis toward 0 when
within the threshold, then fold the per-neighbour snapping over the other
items in list order (skipping the item itself by id). -/
def getSnappingPosition (currentPos : Vec3) (dims : Dimensions)
    (others : List CargoItem) (id : String) (threshold : ℚ) : Vec3 :=
  let p0 : Vec3 :=
    ⟨if |currentPos.x| < threshold then 0 else currentPos.x,
     if |currentPos.y| < threshold then 0 else currentPos.y,
     if |currentPos.z| < threshold then 0 else currentPos.z⟩
  others.foldl (fun p other =>
    if other.id = id then p else snapNeighbor dims threshold p other) p0

/-- Fixed gap between staged items (`spacing` in the source). -/
def stagingSpacing : ℚ := 100

/-- Fixed staging row width limit (`stagingWidthLimit` in the source). -/
def stagingWidthLimit : ℚ := 15000

/-- The row-wrapping shelf layout loop of `arrangeStaging`, with the three
mutable locals (`currentX`, `currentZ`, `maxZInRow`) made explicit. -/
def arrangeStagingGo (curX curZ maxZInRow : ℚ) : List CargoItem → List CargoItem
  | [] => []
  | item :: rest =>
    if curX + item.dimensions.length > stagingWidthLimit then
      let nextZ := curZ + maxZInRow + stagingSpacing
      { item with position := ⟨0, 0, nextZ⟩, isValid := true } ::
        arrangeStagingGo (item.dimensions.length + stagingSpacing) nextZ
          (max 0 item.dimensions.width) rest
    else
      { item with position := ⟨curX, 0, curZ⟩, isValid := true } ::
        arrangeStagingGo (curX + item.dimensions.length + stagingSpacing) curZ
          (max maxZInRow item.dimensions.width) rest

/-- `arrangeStaging` from the source: shelf layout on the floor starting
1500 units beyond the container's far z face. -/
def arrangeStaging (items : List CargoItem) (container : Dimensions) : List CargoItem :=
  arrangeStagingGo 0 (container.width + 1500) 0 items

/-- The four item orderings tried by the battery. -/
inductive SortStrategy where
  | VOLUME
  | FOOTPRINT
  | MAX_DIM
  | RANDOM_WEIGHTED
deriving DecidableEq, Repr

/-- Geometric volume of an item's current footprint. -/
def itemVolume (a : CargoItem) : ℚ :=
  a.dimensions.length * a.dimensions.width * a.dimensions.height

/-- Footprint area of an item. -/
def itemArea (a : CargoItem) : ℚ :=
  a.dimensions.length * a.dimensions.width

/-- Largest extent of an item. -/
def itemMaxDim (a : CargoItem) : ℚ :=
  max a.dimensions.length (max a.dimensions.width a.dimensions.height)

/-- The strategy-specific comparison score from the sort comparator
(positive means `b` before `a`).  `jsSin` models the host `Math.sin`. -/
def strategyScore (jsSin : ℚ → ℚ) (strategy : SortStrategy) (randomSeed : ℚ)
    (a b : CargoItem) : ℚ :=
  match strategy with
  | .VOLUME => itemVolume b - itemVolume a
  | .FOOTPRINT =>
    if itemArea a ≠ itemArea b then itemArea b - itemArea a
    else itemVolume b - itemVolume a
  | .MAX_DIM =>
    if itemMaxDim a ≠ itemMaxDim b then itemMaxDim b - itemMaxDim a
    else itemVolume b - itemVolume a
  | .RANDOM_WEIGHTED =>
    let noiseA := jsSin ((a.id.length : ℚ) + randomSeed) * (2/10)
    let noiseB := jsSin ((b.id.length : ℚ) + randomSeed) * (2/10)
    itemVolume b * (1 + noiseB) - itemVolume a * (1 + noiseA)

/-- The full sort comparator: when the strategy score is within 0.1 of
zero, fall back to height descending. -/
def itemCompare (jsSin : ℚ → ℚ) (strategy : SortStrategy) (randomSeed : ℚ)
    (a b : CargoItem) : ℚ :=
  let score := strategyScore jsSin strategy randomSeed a b
  if |score| < 1/10 then b.dimensions.height - a.dimensions.height else score

/-- The strategy sort of `runPackingTrial`, modelled as a stable merge
sort driven by the source comparator. -/
def sortItems (jsSin : ℚ → ℚ) (strategy : SortStrategy) (randomSeed : ℚ)
    (items : List CargoItem) : List CargoItem :=
  items.mergeSort (fun a b => decide (itemCompare jsSin strategy randomSeed a b ≤ 0))

/-- Feasibility of the unrotated orientation in a free space. -/
def fitsNormal (item : CargoItem) (space : Box) : Prop :=
  item.dimensions.length ≤ space.l ∧ item.dimensions.height ≤ space.h ∧
  item.dimensions.width ≤ space.w

instance (item : CargoItem) (space : Box) : Decidable (fitsNormal item space) := by
  unfold fitsNormal; infer_instance

/-- Feasibility of the 90°-rotated orientation (length and width swapped,
height unchanged). -/
def fitsRotated (item : CargoItem) (space : Box) : Prop :=
  item.dimensions.width ≤ space.l ∧ item.dimensions.height ≤ space.h ∧
  item.dimensions.length ≤ space.w

instance (item : CargoItem) (space : Box) : Decidable (fitsRotated item space) := by
  unfold fitsRotated; infer_instance

/-- The placement heuristic score of a free space: lower is better. -/
def spaceScore (s : Box) : ℚ := s.y * 1000000 + s.z * 1000 + s.x

/-- A candidate placement: index of the free space in the list, the free
space itself, and whether the item is rotated. -/
structure Candidate where
  index : ℕ
  space : Box
  rotated : Bool
deriving DecidableEq, Repr

/-- Keep the incumbent unless the new candidate scores strictly lower
(the `score < bestScore` update of the source loop; `none` plays the
role of the initial `bestScore = Infinity`). -/
def tryCandidate (c : Candidate) (best : Option Candidate) : Option Candidate :=
  match best with
  | none => some c
  | some b => if spaceScore c.space < spaceScore b.space then some c else some b

/-- The placement search loop of `runPackingTrial`: for each free space
in list order, try the unrotated orientation, then (only when length and
width differ) the rotated one. -/
def findBestPlacement (item : CargoItem) (spaces : List Box) : Option Candidate :=
  spaces.enum.foldl (fun best p =>
    let best1 := if fitsNormal item p.2 then tryCandidate ⟨p.1, p.2, false⟩ best else best
    if item.dimensions.length ≠ item.dimensions.width ∧ fitsRotated item p.2 then
      tryCandidate ⟨p.1, p.2, true⟩ best1
    else best1) none

/-- The sequence of feasible (space, orientation) candidates in the exact
order the source loop examines them: free-space list order, unrotated
before rotated for the same space. -/
def candidateList (item : CargoItem) (spaces : List Box) : List Candidate :=
  spaces.enum.flatMap (fun p =>
    (if fitsNormal item p.2 then [⟨p.1, p.2, false⟩] else []) ++
    (if item.dimensions.length ≠ item.dimensions.width ∧ fitsRotated item p.2 then
      [⟨p.1, p.2, true⟩] else []))

/-- Right slice of a free space after a placement (positive-x side). -/
def fragRight (placedBox fs : Box) : Box :=
  { fs with x := max fs.x (placedBox.x + placedBox.l),
            l := fs.x + fs.l - max fs.x (placedBox.x + placedBox.l) }

/-- Left slice of a free space after a placement (negative-x side). -/
def fragLeft (placedBox fs : Box) : Box :=
  { fs with l := placedBox.x - fs.x }

/-- Top slice of a free space after a placement (above along y). -/
def fragTop (placedBox fs : Box) : Box :=
  { fs with y := max fs.y (placedBox.y + placedBox.h),
            h := fs.y + fs.h - max fs.y (placedBox.y + placedBox.h) }

/-- Front slice of a free space after a placement (positive-z side). -/
def fragFront (placedBox fs : Box) : Box :=
  { fs with z := max fs.z (placedBox.z + placedBox.w),
            w := fs.z + fs.w - max fs.z (placedBox.z + placedBox.w) }

/-- Back slice of a free space after a placement (negative-z side). -/
def fragBack (placedBox fs : Box) : Box :=
  { fs with w := placedBox.z - fs.z }

/-- The splitting of one free space by a placed box, exactly mirroring
the guarded pushes of the source: an intersecting space is replaced by
the guarded right / left / top / front / back slices, a non-intersecting
space passes through unchanged. -/
def splitOne (placedBox fs : Box) : List Box :=
  if boxIntersect fs placedBox then
    (if placedBox.x + placedBox.l < fs.x + fs.l then [fragRight placedBox fs] else []) ++
    (if placedBox.x > fs.x then [fragLeft placedBox fs] else []) ++
    (if placedBox.y + placedBox.h < fs.y + fs.h then [fragTop placedBox fs] else []) ++
    (if placedBox.z + placedBox.w < fs.z + fs.w then [fragFront placedBox fs] else []) ++
    (if placedBox.z > fs.z then [fragBack placedBox fs] else [])
  else [fs]

/-- The split pass over the whole free-space list. -/
def splitSpaces (freeSpaces : List Box) (placedBox : Box) : List Box :=
  freeSpaces.flatMap (splitOne placedBox)

/-- The sort comparator of `cleanupSpaces` (ascending y, then z, then x). -/
def spaceLe (a b : Box) : Bool :=
  if a.y ≠ b.y then decide (a.y < b.y)
  else if a.z ≠ b.z then decide (a.z < b.z)
  else decide (a.x ≤ b.x)

/-- Minimum useful extent of a free space (`MIN_DIM` in the source). -/
def MIN_DIM : ℚ := 50

/-- The size filter of `cleanupSpaces`. -/
def sizeOk (s : Box) : Bool :=
  decide (s.l ≥ MIN_DIM) && decide (s.w ≥ MIN_DIM) && decide (s.h ≥ MIN_DIM)

/-- The boxes surviving the size filter of `cleanupSpaces`
(`validSizeSpaces` in the source, after the in-place sort). -/
def survivingSpaces (spaces : List Box) : List Box :=
  (spaces.mergeSort spaceLe).filter sizeOk

/-- `cleanupSpaces` from the source: sort, drop undersized boxes, then
drop every box contained in a surviving box at a different index. -/
def cleanupSpaces (spaces : List Box) : List Box :=
  let validSizeSpaces := survivingSpaces spaces
  (validSizeSpaces.enum.filter (fun p =>
    !(validSizeSpaces.enum.any (fun q => (q.1 != p.1) && decide (contains q.2 p.2))))).map
    (fun p => p.2)

/-- State threaded through a single packing trial. -/
structure TrialState where
  freeSpaces : List Box
  placedItems : List CargoItem
  totalPackedVol : ℚ

/-- The box occupied by an item placed in `space` with the chosen
rotation (`placedBox` in the source). -/
def placedBoxOf (space : Box) (item : CargoItem) (rotated : Bool) : Box :=
  { x := space.x, y := space.y, z := space.z,
    l := if rotated then item.dimensions.width else item.dimensions.length,
    h := item.dimensions.height,
    w := if rotated then item.dimensions.length else item.dimensions.width }

/-- The dimensions stored on a placed item (`finalDimensions`). -/
def finalDims (item : CargoItem) (rotated : Bool) : Dimensions :=
  if rotated then
    { item.dimensions with length := item.dimensions.width, width := item.dimensions.length }
  else item.dimensions

/-- The placed item record (`newItem` in the source): the item moved to
the space's origin with the chosen orientation applied and flagged
valid. -/
def placedItemOf (item : CargoItem) (space : Box) (rotated : Bool) : CargoItem :=
  { item with dimensions := finalDims item rotated,
              position := ⟨space.x, space.y, space.z⟩, isValid := true }

/-- The failed item record: flagged invalid at the sentinel position
(0, -9999, 0). -/
def invalidItemOf (item : CargoItem) : CargoItem :=
  { item with position := ⟨0, -9999, 0⟩, isValid := false }

/-- One iteration of the trial loop: find the best placement, place the
item there and split + clean the free spaces, or stage the item as
invalid at the sentinel position. -/
def packStep (st : TrialState) (item : CargoItem) : TrialState :=
  match findBestPlacement item st.freeSpaces with
  | some c =>
    let newItem := placedItemOf item c.space c.rotated
    let placedBox := placedBoxOf c.space item c.rotated
    { freeSpaces := cleanupSpaces (splitSpaces st.freeSpaces placedBox),
      placedItems := st.placedItems ++ [newItem],
      totalPackedVol := st.totalPackedVol + itemVolume newItem }
  | none =>
    { st with placedItems := st.placedItems ++ [invalidItemOf item] }

/-- Result record of one trial. -/
structure TrialResult where
  items : List CargoItem
  packedVolume : ℚ
  packedCount : ℕ

/-- The initial free-space list: one box spanning the whole container. -/
def initialFreeSpaces (container : Dimensions) : List Box :=
  [{ x := 0, y := 0, z := 0, l := container.length, h := container.height, w := container.width }]

/-- `runPackingTrial` from the source: sort by strategy, then fold the
placement step over the items. -/
def runPackingTrial (jsSin : ℚ → ℚ) (items : List CargoItem) (container : Dimensions)
    (strategy : SortStrategy) (randomSeed : ℚ) : TrialResult :=
  let itemsToPack := sortItems jsSin strategy randomSeed items
  let final := itemsToPack.foldl packStep ⟨initialFreeSpaces container, [], 0⟩
  { items := final.placedItems, packedVolume := final.totalPackedVol,
    packedCount := (final.placedItems.filter (fun i => i.isValid)).length }

/-- The fixed battery of trials run by `autoPack`. -/
def trialConfigs : List (SortStrategy × ℚ) :=
  [(.VOLUME, 0), (.FOOTPRINT, 0), (.MAX_DIM, 0),
   (.RANDOM_WEIGHTED, 1), (.RANDOM_WEIGHTED, 42),
   (.RANDOM_WEIGHTED, 123), (.RANDOM_WEIGHTED, 999)]

/-- The list of results of the seven battery trials (the `trials` loop
of `autoPack`). -/
def batteryResults (jsSin : ℚ → ℚ) (items : List CargoItem)
    (container : Dimensions) : List TrialResult :=
  trialConfigs.map (fun t => runPackingTrial jsSin items container t.1 t.2)

/-- The best-result selection fold of `autoPack`: keep the incumbent
unless the new trial's packed volume is strictly greater. -/
def selectBest (results : List TrialResult) : Option TrialResult :=
  results.foldl (fun best result =>
    match best with
    | none => some result
    | some b => if result.packedVolume > b.packedVolume then some result else some b) none

/-- `autoPack` from the source: run the battery, pick the best trial,
return its valid items followed by its failed items laid out by the
staging arranger. -/
def autoPack (jsSin : ℚ → ℚ) (items : List CargoItem) (container : Dimensions) :
    List CargoItem :=
  let results := trialConfigs.map (fun t => runPackingTrial jsSin items container t.1 t.2)
  match selectBest results with
  | none => items
  | some best =>
    let success := best.items.filter (fun i => i.isValid)
    let failed := best.items.filter (fun i => !i.isValid)
    success ++ arrangeStaging failed container

/-- `a` lies inside `b` (closed containment of intervals on all axes). -/
def subBox (a b : Box) : Prop :=
  b.x ≤ a.x ∧ a.x + a.l ≤ b.x + b.l ∧
  b.y ≤ a.y ∧ a.y + a.h ≤ b.y + b.h ∧
  b.z ≤ a.z ∧ a.z + a.w ≤ b.z + b.w

/-- The box spanned by the whole container. -/
def containerBox (c : Dimensions) : Box :=
  { x := 0, y := 0, z := 0, l := c.length, h := c.height, w := c.width }

/-- All three extents of a box are positive. -/
def posExt (b : Box) : Prop := 0 < b.l ∧ 0 < b.h ∧ 0 < b.w

/-- The free-space invariant: the box lies inside the container and has
positive extents. -/
def spaceInv (c : Dimensions) (b : Box) : Prop :=
  subBox b (containerBox c) ∧ posExt b

/-- All three dimensions of an item are positive (the precondition the
core assumes of its callers). -/
def posDims (it : CargoItem) : Prop :=
  0 < it.dimensions.length ∧ 0 < it.dimensions.width ∧ 0 < it.dimensions.height

/-- The invariant threaded through one packing trial: free spaces lie in
the container with positive extents, placed items have positive
dimensions, validly placed items lie in the container, free spaces do
not intersect validly placed items, and validly placed items are
mutually non-intersecting. -/
def trialInv (c : Dimensions) (st : TrialState) : Prop :=
  (∀ b ∈ st.freeSpaces, spaceInv c b) ∧
  (∀ p ∈ st.placedItems, posDims p) ∧
  (∀ p ∈ st.placedItems, p.isValid = true → subBox (itemBox p) (containerBox c)) ∧
  (∀ b ∈ st.freeSpaces, ∀ p ∈ st.placedItems, p.isValid = true →
    ¬ boxIntersect b (itemBox p)) ∧
  List.Pairwise (fun p q => p.isValid = true → q.isValid = true →
    ¬ boxIntersect (itemBox p) (itemBox q)) st.placedItems

/-! ## Basic geometric lemmas -/

/-- The epsilon-tolerant overlap test is strictly stronger than the open
intersection test. -/
lemma boxIntersect_of_overlapsEps {a b : Box} (h : overlapsEps a b) : boxIntersect a b := by
  obtain ⟨h1, h2, h3, h4, h5, h6⟩ := h
  exact ⟨by linarith, by linarith, by linarith, by linarith, by linarith, by linarith⟩

lemma subBox_refl (a : Box) : subBox a a :=
  ⟨le_refl _, le_refl _, le_refl _, le_refl _, le_refl _, le_refl _⟩

lemma subBox_trans {a b c : Box} (h1 : subBox a b) (h2 : subBox b c) : subBox a c := by
  obtain ⟨p1, p2, p3, p4, p5, p6⟩ := h1
  obtain ⟨q1, q2, q3, q4, q5, q6⟩ := h2
  exact ⟨by linarith, by linarith, by linarith, by linarith, by linarith, by linarith⟩

/-- Whatever intersects a sub-box intersects the enclosing box. -/
lemma boxIntersect_mono {a b p : Box} (hsub : subBox a b) (h : boxIntersect a p) :
    boxIntersect b p := by
  obtain ⟨s1, s2, s3, s4, s5, s6⟩ := hsub
  obtain ⟨h1, h2, h3, h4, h5, h6⟩ := h
  exact ⟨by linarith, by linarith, by linarith, by linarith, by linarith, by linarith⟩

lemma boxIntersect_symm {a b : Box} (h : boxIntersect a b) : boxIntersect b a := by
  obtain ⟨h1, h2, h3, h4, h5, h6⟩ := h
  exact ⟨by linarith, by linarith, by linarith, by linarith, by linarith, by linarith⟩

/-! ## Split lemmas -/

/-- Every output of the one-box split is contained in the input box. -/
lemma splitOne_subBox {pB fs f : Box} (hf : f ∈ splitOne pB fs) : subBox f fs := by
  unfold splitOne at hf
  split at hf
  · rename_i hi
    obtain ⟨i1, i2, i3, i4, i5, i6⟩ := hi
    simp only [List.mem_append] at hf
    rcases hf with ((((h | h) | h) | h) | h) <;> split at h <;>
      simp only [List.mem_singleton, List.not_mem_nil] at h <;> try subst h
    all_goals first
    | exact absurd h (by simp)
    | (refine ⟨?_, ?_, ?_, ?_, ?_, ?_⟩ <;>
        simp only [fragRight, fragLeft, fragTop, fragFront, fragBack] <;>
        first
        | exact le_refl _
        | exact le_max_left _ _
        | linarith [le_max_left fs.x (pB.x + pB.l), le_max_left fs.y (pB.y + pB.h),
            le_max_left fs.z (pB.z + pB.w)])
  · simp only [List.mem_singleton] at hf
    subst hf
    exact subBox_refl _

/-- The one-box split preserves positive extents. -/
lemma splitOne_posExt {pB fs f : Box} (hfs : posExt fs) (hf : f ∈ splitOne pB fs) :
    posExt f := by
  obtain ⟨hl, hh, hw⟩ := hfs
  unfold splitOne at hf
  split at hf
  · rename_i hi
    simp only [List.mem_append] at hf
    rcases hf with ((((h | h) | h) | h) | h) <;> split at h <;>
      simp only [List.mem_singleton, List.not_mem_nil] at h <;> try subst h
    all_goals first
    | exact absurd h (by simp)
    | (rename_i hguard
       refine ⟨?_, ?_, ?_⟩ <;>
        simp only [fragRight, fragLeft, fragTop, fragFront, fragBack] <;>
        first
        | linarith
        | (rw [sub_pos]
           apply max_lt <;> linarith))
  · simp only [List.mem_singleton] at hf
    subst hf
    exact ⟨hl, hh, hw⟩

/-- No output of the one-box split intersects the placed box. -/
lemma splitOne_not_intersect {pB fs f : Box} (hf : f ∈ splitOne pB fs) :
    ¬ boxIntersect f pB := by
  unfold splitOne at hf
  split at hf
  · rename_i hi
    simp only [List.mem_append] at hf
    rcases hf with ((((h | h) | h) | h) | h) <;> split at h <;>
      simp only [List.mem_singleton, List.not_mem_nil] at h <;> try subst h
    all_goals first
    | exact absurd h (by simp)
    | (intro hint
       obtain ⟨c1, c2, c3, c4, c5, c6⟩ := hint
       simp only [fragRight, fragLeft, fragTop, fragFront, fragBack] at c1 c2 c3 c4 c5 c6
       first
       | linarith [le_max_right fs.x (pB.x + pB.l)]
       | linarith [le_max_right fs.y (pB.y + pB.h)]
       | linarith [le_max_right fs.z (pB.z + pB.w)]
       | linarith)
  · simp only [List.mem_singleton] at hf
    subst hf
    rename_i hni
    exact hni

/-- Membership in the split of a whole list. -/
lemma mem_splitSpaces {spaces : List Box} {pB f : Box} (hf : f ∈ splitSpaces spaces pB) :
    ∃ fs ∈ spaces, f ∈ splitOne pB fs := by
  unfold splitSpaces at hf
  exact List.mem_flatMap.mp hf

/-! ## Cleanup membership lemmas -/

/-- A member of the cleanup result sits at an index of the survivor list
that no other index's box contains. -/
lemma cleanup_mem_elim {spaces : List Box} {b : Box} (h : b ∈ cleanupSpaces spaces) :
    ∃ i : ℕ, ∃ hi : i < (survivingSpaces spaces).length,
      (survivingSpaces spaces).get ⟨i, hi⟩ = b ∧
      ∀ j : ℕ, ∀ hj : j < (survivingSpaces spaces).length,
        j ≠ i → ¬ contains ((survivingSpaces spaces).get ⟨j, hj⟩) b := by
  simp only [cleanupSpaces, List.mem_map, List.mem_filter] at h
  obtain ⟨⟨i, a⟩, ⟨hmem, hP⟩, rfl⟩ := h
  rw [List.mem_enum_iff_getElem?] at hmem
  obtain ⟨hi, ha⟩ := List.getElem?_eq_some_iff.mp hmem
  refine ⟨i, hi, ha, ?_⟩
  intro j hj hne hcont
  simp only [Bool.not_eq_true', List.any_eq_false, Bool.and_eq_true, bne_iff_ne,
    decide_eq_true_eq, not_and] at hP
  exact hP (j, (survivingSpaces spaces).get ⟨j, hj⟩)
    (List.mem_enum_iff_getElem?.mpr (by simp)) (by simpa using hne) (by simpa using hcont)

/-- Survivors are input boxes. -/
lemma surviving_subset {spaces : List Box} {b : Box} (h : b ∈ survivingSpaces spaces) :
    b ∈ spaces := by
  have := List.mem_filter.mp h
  exact (List.mergeSort_perm spaces spaceLe).subset this.1

/-- Survivors pass the size filter. -/
lemma surviving_sizeOk {spaces : List Box} {b : Box} (h : b ∈ survivingSpaces spaces) :
    MIN_DIM ≤ b.l ∧ MIN_DIM ≤ b.h ∧ MIN_DIM ≤ b.w := by
  have := (List.mem_filter.mp h).2
  simp only [sizeOk, Bool.and_eq_true, decide_eq_true_eq, ge_iff_le] at this
  exact ⟨this.1.1, this.2, this.1.2⟩

/-- Cleanup results are survivors. -/
lemma cleanup_subset_surviving {spaces : List Box} {b : Box} (h : b ∈ cleanupSpaces spaces) :
    b ∈ survivingSpaces spaces := by
  obtain ⟨i, hi, hget, -⟩ := cleanup_mem_elim h
  exact hget ▸ List.get_mem _ _ _

/-- Cleanup results are input boxes. -/
lemma cleanup_subset {spaces : List Box} {b : Box} (h : b ∈ cleanupSpaces spaces) :
    b ∈ spaces :=
  surviving_subset (cleanup_subset_surviving h)

/-! ## The keep-if-strictly-better fold -/

/-- Both the placement loop and the trial selection keep an incumbent
and replace it only when the new element's key is strictly smaller: the
result is the earliest element attaining the minimum key. -/
lemma foldl_keepMin_spec {α : Type} (key : α → ℚ) :
    ∀ (rs : List α) (r : α),
      ∃ i : ℕ, ∃ hi : i < (r :: rs).length,
        rs.foldl (fun b c => if key c < key b then c else b) r = (r :: rs).get ⟨i, hi⟩ ∧
        (∀ j : ℕ, ∀ hj : j < (r :: rs).length,
          key ((r :: rs).get ⟨i, hi⟩) ≤ key ((r :: rs).get ⟨j, hj⟩)) ∧
        (∀ j : ℕ, ∀ hj : j < (r :: rs).length, j < i →
          key ((r :: rs).get ⟨i, hi⟩) < key ((r :: rs).get ⟨j, hj⟩)) := by
  intro rs
  induction rs with
  | nil =>
    intro r
    refine ⟨0, by simp, rfl, ?_, ?_⟩
    · intro j hj
      have hj0 : j = 0 := by simp only [List.length_cons, List.length_nil] at hj; omega
      subst hj0
      exact le_refl _
    · intro j hj hji
      omega
  | cons x rs ih =>
    intro r
    by_cases hx : key x < key r
    · obtain ⟨i, hi, heq, hmin, hfirst⟩ := ih x
      refine ⟨i + 1, by simp only [List.length_cons] at hi ⊢; omega, ?_, ?_, ?_⟩
      · show List.foldl _ (if key x < key r then x else r) rs = _
        rw [if_pos hx]
        exact heq
      · intro j hj
        rcases j with _ | j
        · exact le_of_lt (lt_of_le_of_lt (hmin 0 (by simp)) hx)
        · exact hmin j (by simp only [List.length_cons] at hj ⊢; omega)
      · intro j hj hji
        rcases j with _ | j
        · exact lt_of_le_of_lt (hmin 0 (by simp)) hx
        · exact hfirst j (by simp only [List.length_cons] at hj ⊢; omega) (by omega)
    · obtain ⟨i, hi, heq, hmin, hfirst⟩ := ih r
      rcases i with _ | i
      · refine ⟨0, by simp, ?_, ?_, ?_⟩
        · show List.foldl _ (if key x < key r then x else r) rs = _
          rw [if_neg hx]
          exact heq
        · intro j hj
          rcases j with _ | j
          · exact hmin 0 (by simp)
          · rcases j with _ | j
            · exact le_trans (hmin 0 (by simp)) (not_lt.mp hx)
            · exact hmin (j + 1) (by simp only [List.length_cons] at hj ⊢; omega)
        · intro j hj hji
          omega
      · refine ⟨i + 2, by simp only [List.length_cons] at hi ⊢; omega, ?_, ?_, ?_⟩
        · show List.foldl _ (if key x < key r then x else r) rs = _
          rw [if_neg hx]
          exact heq
        · intro j hj
          rcases j with _ | j
          · exact hmin 0 (by simp)
          · rcases j with _ | j
            · exact le_trans (le_of_lt (hfirst 0 (by simp) (by omega))) (not_lt.mp hx)
            · exact hmin (j + 1) (by simp only [List.length_cons] at hj ⊢; omega)
        · intro j hj hji
          rcases j with _ | j
          · exact hfirst 0 (by simp) (by omega)
          · rcases j with _ | j
            · exact lt_of_lt_of_le (hfirst 0 (by simp) (by omega)) (not_lt.mp hx)
            · exact hfirst (j + 1) (by simp only [List.length_cons] at hj ⊢; omega)
                (by omega)

/-- The two-orientation step of the placement loop processes exactly the
chunk of candidates its space contributes to the candidate list. -/
lemma foldl_bigStep_flatMap (item : CargoItem) :
    ∀ (l : List (ℕ × Box)) (init : Option Candidate),
      l.foldl (fun best p =>
        let best1 := if fitsNormal item p.2 then
          tryCandidate ⟨p.1, p.2, false⟩ best else best
        if item.dimensions.length ≠ item.dimensions.width ∧ fitsRotated item p.2 then
          tryCandidate ⟨p.1, p.2, true⟩ best1
        else best1) init =
      (l.flatMap (fun p =>
        (if fitsNormal item p.2 then [⟨p.1, p.2, false⟩] else []) ++
        (if item.dimensions.length ≠ item.dimensions.width ∧ fitsRotated item p.2 then
          [⟨p.1, p.2, true⟩] else []))).foldl (fun b c => tryCandidate c b) init := by
  intro l
  induction l with
  | nil => intro init; rfl
  | cons p l ih =>
    intro init
    rw [List.foldl_cons, List.flatMap_cons, List.foldl_append, ih]
    congr 1
    by_cases hA : fitsNormal item p.2 <;>
      by_cases hB : item.dimensions.length ≠ item.dimensions.width ∧ fitsRotated item p.2 <;>
      simp [hA, hB]

/-- The placement loop equals the candidate-at-a-time fold over the
candidate list. -/
lemma findBestPlacement_eq_foldl (item : CargoItem) (spaces : List Box) :
    findBestPlacement item spaces =
      (candidateList item spaces).foldl (fun b c => tryCandidate c b) none := by
  unfold findBestPlacement candidateList
  exact foldl_bigStep_flatMap item spaces.enum none

/-- Lifting the candidate fold out of the `Option` state. -/
lemma tryCandidate_foldl (l : List Candidate) (b : Candidate) :
    l.foldl (fun ob c => tryCandidate c ob) (some b) =
      some (l.foldl (fun b0 c =>
        if spaceScore c.space < spaceScore b0.space then c else b0) b) := by
  induction l generalizing b with
  | nil => rfl
  | cons x xs ih =>
    rw [List.foldl_cons, List.foldl_cons]
    have hstep : tryCandidate x (some b) =
        some (if spaceScore x.space < spaceScore b.space then x else b) := by
      rw [tryCandidate, apply_ite some]
    rw [hstep]
    exact ih _

/-- The empty-candidate case of the placement loop. -/
lemma findBestPlacement_none_iff (item : CargoItem) (spaces : List Box) :
    findBestPlacement item spaces = none ↔ candidateList item spaces = [] := by
  rw [findBestPlacement_eq_foldl]
  cases h : candidateList item spaces with
  | nil => simp
  | cons c cs =>
    rw [List.foldl_cons]
    rw [show tryCandidate c none = some c from rfl, tryCandidate_foldl]
    simp

/-- Lifting the trial-selection fold out of the `Option` state, with the
source's `>` comparison rewritten as a `<` on negated volumes. -/
lemma selectBest_foldl_option (l : List TrialResult) (b : TrialResult) :
    l.foldl (fun best result => match best with
      | none => some result
      | some bb => if result.packedVolume > bb.packedVolume then
          some result else some bb) (some b) =
      some (l.foldl (fun bb c =>
        if -c.packedVolume < -bb.packedVolume then c else bb) b) := by
  induction l generalizing b with
  | nil => rfl
  | cons x xs ih =>
    rw [List.foldl_cons, List.foldl_cons]
    have hstep : (match some b with
        | none => some x
        | some bb => if x.packedVolume > bb.packedVolume then
            some x else some bb) =
        some (if -x.packedVolume < -b.packedVolume then x else b) := by
      show (if x.packedVolume > b.packedVolume then some x else some b) = _
      rw [if_congr (show x.packedVolume > b.packedVolume ↔
        -x.packedVolume < -b.packedVolume by constructor <;> intro h <;> linarith) rfl rfl,
        apply_ite some]
    rw [hstep]
    exact ih _

/-- `selectBest` of a nonempty list in closed form. -/
lemma selectBest_cons (r : TrialResult) (rs : List TrialResult) :
    selectBest (r :: rs) =
      some (rs.foldl (fun bb c =>
        if -c.packedVolume < -bb.packedVolume then c else bb) r) := by
  unfold selectBest
  rw [List.foldl_cons]
  exact selectBest_foldl_option rs r

/-- `selectBest` on a nonempty list returns the earliest trial with the
strictly greatest packed volume. -/
lemma selectBest_spec (r : TrialResult) (rs : List TrialResult) :
    ∃ i : ℕ, ∃ hi : i < (r :: rs).length,
      selectBest (r :: rs) = some ((r :: rs).get ⟨i, hi⟩) ∧
      (∀ j : ℕ, ∀ hj : j < (r :: rs).length,
        ((r :: rs).get ⟨j, hj⟩).packedVolume ≤ ((r :: rs).get ⟨i, hi⟩).packedVolume) ∧
      (∀ j : ℕ, ∀ hj : j < (r :: rs).length, j < i →
        ((r :: rs).get ⟨j, hj⟩).packedVolume < ((r :: rs).get ⟨i, hi⟩).packedVolume) := by
  obtain ⟨i, hi, heq, hmin, hfirst⟩ :=
    foldl_keepMin_spec (fun t : TrialResult => -t.packedVolume) rs r
  refine ⟨i, hi, ?_, ?_, ?_⟩
  · rw [selectBest_cons]
    exact congrArg some heq
  · intro j hj
    have h1 : -((r :: rs).get ⟨i, hi⟩).packedVolume ≤
        -((r :: rs).get ⟨j, hj⟩).packedVolume := hmin j hj
    linarith
  · intro j hj hji
    have h1 : -((r :: rs).get ⟨i, hi⟩).packedVolume <
        -((r :: rs).get ⟨j, hj⟩).packedVolume := hfirst j hj hji
    linarith

/-- `autoPack` with its internal lets unfolded. -/
lemma autoPack_eq (jsSin : ℚ → ℚ) (items : List CargoItem) (container : Dimensions) :
    autoPack jsSin items container =
      match selectBest (batteryResults jsSin items container) with
      | none => items
      | some best => best.items.filter (fun i => i.isValid) ++
          arrangeStaging (best.items.filter (fun i => !i.isValid)) container := rfl

/-! ## Staging lemmas -/

/-- The staging layout loop: every output is valid, on the floor, at or
beyond the current row, and either in the current row to the right of
the cursor or in a strictly later row; distinct outputs never overlap. -/
lemma arrangeStagingGo_spec :
    ∀ (items : List CargoItem) (curX curZ maxZ : ℚ), 0 ≤ maxZ →
      (∀ it ∈ items, 0 < it.dimensions.length) →
      (∀ it ∈ arrangeStagingGo curX curZ maxZ items,
        it.isValid = true ∧ it.position.y = 0 ∧ curZ ≤ it.position.z ∧
        ((it.position.z = curZ ∧ curX ≤ it.position.x) ∨
          curZ + maxZ + stagingSpacing ≤ it.position.z)) ∧
      List.Pairwise (fun a b => ¬ overlapsEps (itemBox a) (itemBox b))
        (arrangeStagingGo curX curZ maxZ items) := by
  intro items
  induction items with
  | nil =>
    intro curX curZ maxZ hmz hpos
    constructor
    · intro it hit
      exact absurd hit (by simp [arrangeStagingGo])
    · rw [arrangeStagingGo]
      exact List.Pairwise.nil
  | cons item rest ih =>
    intro curX curZ maxZ hmz hpos
    have hlen : 0 < item.dimensions.length := hpos item (by simp)
    have hposrest : ∀ it ∈ rest, 0 < it.dimensions.length :=
      fun it hit => hpos it (by simp [hit])
    by_cases hw : curX + item.dimensions.length > stagingWidthLimit
    · have hgo : arrangeStagingGo curX curZ maxZ (item :: rest) =
          { item with position := ⟨0, 0, curZ + maxZ + stagingSpacing⟩, isValid := true } ::
            arrangeStagingGo (item.dimensions.length + stagingSpacing)
              (curZ + maxZ + stagingSpacing) (max 0 item.dimensions.width) rest := by
        rw [arrangeStagingGo, if_pos hw]
      obtain ⟨ihProps, ihPair⟩ := ih (item.dimensions.length + stagingSpacing)
        (curZ + maxZ + stagingSpacing) (max 0 item.dimensions.width)
        (le_max_left 0 _) hposrest
      have hsp : stagingSpacing = 100 := rfl
      constructor
      · intro it hit
        rw [hgo] at hit
        rcases List.mem_cons.mp hit with h | h
        · subst h
          refine ⟨rfl, rfl, ?_, Or.inr ?_⟩
          · show curZ ≤ curZ + maxZ + stagingSpacing
            rw [hsp]
            linarith
          · show curZ + maxZ + stagingSpacing ≤ curZ + maxZ + stagingSpacing
            exact le_refl _
        · obtain ⟨hval, hy, hz, hcl⟩ := ihProps it h
          refine ⟨hval, hy, by rw [hsp] at hz; linarith, Or.inr ?_⟩
          rcases hcl with ⟨hzeq, _⟩ | hge
          · rw [hzeq]
          · have := le_max_left (0 : ℚ) item.dimensions.width
            rw [hsp] at hge ⊢
            linarith
      · rw [hgo]
        refine List.Pairwise.cons ?_ ihPair
        intro r hr
        obtain ⟨hval, hy, hz, hcl⟩ := ihProps r hr
        intro hov
        obtain ⟨o1, o2, o3, o4, o5, o6⟩ := hov
        simp only [itemBox] at o1 o2 o3 o4 o5 o6
        rcases hcl with ⟨hzeq, hxge⟩ | hge
        · rw [hsp] at hxge
          linarith
        · have hmw := le_max_right (0 : ℚ) item.dimensions.width
          rw [hsp] at hge
          linarith
    · have hgo : arrangeStagingGo curX curZ maxZ (item :: rest) =
          { item with position := ⟨curX, 0, curZ⟩, isValid := true } ::
            arrangeStagingGo (curX + item.dimensions.length + stagingSpacing) curZ
              (max maxZ item.dimensions.width) rest := by
        rw [arrangeStagingGo, if_neg hw]
      obtain ⟨ihProps, ihPair⟩ := ih (curX + item.dimensions.length + stagingSpacing) curZ
        (max maxZ item.dimensions.width) (le_trans hmz (le_max_left _ _)) hposrest
      have hsp : stagingSpacing = 100 := rfl
      constructor
      · intro it hit
        rw [hgo] at hit
        rcases List.mem_cons.mp hit with h | h
        · subst h
          exact ⟨rfl, rfl, le_refl _, Or.inl ⟨rfl, le_refl _⟩⟩
        · obtain ⟨hval, hy, hz, hcl⟩ := ihProps it h
          refine ⟨hval, hy, hz, ?_⟩
          rcases hcl with ⟨hzeq, hxge⟩ | hge
          · exact Or.inl ⟨hzeq, by rw [hsp] at hxge; linarith⟩
          · refine Or.inr ?_
            have := le_max_left maxZ item.dimensions.width
            rw [hsp] at hge ⊢
            linarith
      · rw [hgo]
        refine List.Pairwise.cons ?_ ihPair
        intro r hr
        obtain ⟨hval, hy, hz, hcl⟩ := ihProps r hr
        intro hov
        obtain ⟨o1, o2, o3, o4, o5, o6⟩ := hov
        simp only [itemBox] at o1 o2 o3 o4 o5 o6
        rcases hcl with ⟨hzeq, hxge⟩ | hge
        · rw [hsp] at hxge
          linarith
        · have hmw := le_max_right maxZ item.dimensions.width
          rw [hsp] at hge
          linarith

/-- The staging layout preserves the number of items. -/
lemma arrangeStagingGo_length :
    ∀ (items : List CargoItem) (curX curZ maxZ : ℚ),
      (arrangeStagingGo curX curZ maxZ items).length = items.length := by
  intro items
  induction items with
  | nil => intro curX curZ maxZ; rfl
  | cons item rest ih =>
    intro curX curZ maxZ
    rw [arrangeStagingGo]
    split <;> simp [ih]

/-- Membership in the candidate list: the space sits at the stated index
and the orientation is feasible (rotated only when length ≠ width). -/
lemma mem_candidateList {item : CargoItem} {spaces : List Box} {c : Candidate} :
    c ∈ candidateList item spaces ↔
      (∃ h : c.index < spaces.length, c.space = spaces.get ⟨c.index, h⟩) ∧
      ((c.rotated = false ∧ fitsNormal item c.space) ∨
       (c.rotated = true ∧ item.dimensions.length ≠ item.dimensions.width ∧
        fitsRotated item c.space)) := by
  obtain ⟨ci, cs, cr⟩ := c
  unfold candidateList
  rw [List.mem_flatMap]
  constructor
  · rintro ⟨p, hp, hc⟩
    rw [List.mem_enum_iff_getElem?] at hp
    obtain ⟨hlt, hget⟩ := List.getElem?_eq_some_iff.mp hp
    rw [List.mem_append] at hc
    rcases hc with hc | hc
    · split at hc
      · rename_i hfits
        simp only [List.mem_singleton] at hc
        cases hc
        refine ⟨⟨hlt, ?_⟩, Or.inl ⟨rfl, hfits⟩⟩
        rw [List.get_eq_getElem]
        exact hget.symm
      · exact absurd hc (List.not_mem_nil _)
    · split at hc
      · rename_i hfits
        simp only [List.mem_singleton] at hc
        cases hc
        refine ⟨⟨hlt, ?_⟩, Or.inr ⟨rfl, hfits.1, hfits.2⟩⟩
        rw [List.get_eq_getElem]
        exact hget.symm
      · exact absurd hc (List.not_mem_nil _)
  · rintro ⟨⟨hlt, hsp⟩, hrot⟩
    refine ⟨(ci, cs), ?_, ?_⟩
    · rw [List.mem_enum_iff_getElem?]
      refine List.getElem?_eq_some_iff.mpr ⟨hlt, ?_⟩
      rw [List.get_eq_getElem] at hsp
      exact hsp.symm
    · rw [List.mem_append]
      rcases hrot with ⟨hr, hfits⟩ | ⟨hr, hne, hfits⟩
      · subst hr
        refine Or.inl ?_
        rw [if_pos hfits]
        exact List.mem_singleton.mpr rfl
      · subst hr
        refine Or.inr ?_
        rw [if_pos ⟨hne, hfits⟩]
        exact List.mem_singleton.mpr rfl

/-- A successful placement search yields a member of the candidate list. -/
lemma findBestPlacement_some_mem {item : CargoItem} {spaces : List Box} {c : Candidate}
    (h : findBestPlacement item spaces = some c) : c ∈ candidateList item spaces := by
  rw [findBestPlacement_eq_foldl] at h
  cases hcl : candidateList item spaces with
  | nil =>
    rw [hcl] at h
    exact absurd h (by simp)
  | cons c0 cs =>
    rw [hcl, List.foldl_cons, show tryCandidate c0 none = some c0 from rfl,
      tryCandidate_foldl] at h
    obtain ⟨i, hi, heq, -, -⟩ :=
      foldl_keepMin_spec (fun cc : Candidate => spaceScore cc.space) cs c0
    have hc : c = (c0 :: cs).get ⟨i, hi⟩ := by
      have h2 := Option.some.inj h
      rw [← h2]
      exact heq
    rw [hc]
    exact List.get_mem _ _ _

/-- A successful placement search yields a space of the list, and the
placed box (in the chosen orientation) fits inside that space. -/
lemma findBestPlacement_subBox {item : CargoItem} {spaces : List Box} {c : Candidate}
    (h : findBestPlacement item spaces = some c) :
    c.space ∈ spaces ∧ subBox (placedBoxOf c.space item c.rotated) c.space := by
  have hmem := findBestPlacement_some_mem h
  rw [mem_candidateList] at hmem
  obtain ⟨⟨hlt, hsp⟩, hrot⟩ := hmem
  refine ⟨by rw [hsp]; exact List.get_mem _ _ _, ?_⟩
  rcases hrot with ⟨hr, hfits⟩ | ⟨hr, hne, hfits⟩ <;>
    obtain ⟨f1, f2, f3⟩ := hfits <;>
    rw [hr] <;>
    unfold placedBoxOf subBox <;>
    refine ⟨le_refl _, ?_, le_refl _, ?_, le_refl _, ?_⟩ <;>
    simp only [if_true, if_false, Bool.false_eq_true, Bool.true_eq_false, ite_true,
      ite_false] <;>
    linarith

/-- The two branches of the placement step, made explicit. -/
lemma packStep_cases (st : TrialState) (item : CargoItem) :
    (∃ c : Candidate, findBestPlacement item st.freeSpaces = some c ∧
      packStep st item =
        { freeSpaces := cleanupSpaces
            (splitSpaces st.freeSpaces (placedBoxOf c.space item c.rotated)),
          placedItems := st.placedItems ++ [placedItemOf item c.space c.rotated],
          totalPackedVol := st.totalPackedVol +
            itemVolume (placedItemOf item c.space c.rotated) }) ∨
    (findBestPlacement item st.freeSpaces = none ∧
      packStep st item =
        { st with placedItems := st.placedItems ++ [invalidItemOf item] }) := by
  unfold packStep
  cases h : findBestPlacement item st.freeSpaces with
  | some c => exact Or.inl ⟨c, rfl, rfl⟩
  | none => exact Or.inr ⟨rfl, rfl⟩

/-- The placement step preserves the trial invariant. -/
lemma packStep_trialInv {c : Dimensions} {st : TrialState} {item : CargoItem}
    (hitem : posDims item) (hinv : trialInv c st) : trialInv c (packStep st item) := by
  obtain ⟨hFS, hPD, hPC, hFP, hPP⟩ := hinv
  obtain ⟨h1, h2, h3⟩ := hitem
  rcases packStep_cases st item with ⟨c0, hfind, hstep⟩ | ⟨hfind, hstep⟩
  · obtain ⟨hspmem, hsub⟩ := findBestPlacement_subBox hfind
    have hspinv := hFS c0.space hspmem
    have hbox : itemBox (placedItemOf item c0.space c0.rotated) =
        placedBoxOf c0.space item c0.rotated := by
      cases c0.rotated <;> rfl
    have hniPD : posDims (placedItemOf item c0.space c0.rotated) := by
      cases c0.rotated
      · exact ⟨h1, h2, h3⟩
      · exact ⟨h2, h1, h3⟩
    have hpBsub : subBox (placedBoxOf c0.space item c0.rotated) (containerBox c) :=
      subBox_trans hsub hspinv.1
    rw [hstep]
    refine ⟨?_, ?_, ?_, ?_, ?_⟩
    · intro b hb
      obtain ⟨fs, hfs, hbf⟩ := mem_splitSpaces (cleanup_subset hb)
      exact ⟨subBox_trans (splitOne_subBox hbf) (hFS fs hfs).1,
        splitOne_posExt (hFS fs hfs).2 hbf⟩
    · intro p hp
      rcases List.mem_append.mp hp with h | h
      · exact hPD p h
      · simp only [List.mem_singleton] at h
        subst h
        exact hniPD
    · intro p hp hval
      rcases List.mem_append.mp hp with h | h
      · exact hPC p h hval
      · simp only [List.mem_singleton] at h
        subst h
        rw [hbox]
        exact hpBsub
    · intro b hb p hp hval
      obtain ⟨fs, hfs, hbf⟩ := mem_splitSpaces (cleanup_subset hb)
      rcases List.mem_append.mp hp with h | h
      · exact fun hint =>
          hFP fs hfs p h hval (boxIntersect_mono (splitOne_subBox hbf) hint)
      · simp only [List.mem_singleton] at h
        subst h
        rw [hbox]
        exact splitOne_not_intersect hbf
    · rw [List.pairwise_append]
      refine ⟨hPP, List.pairwise_singleton _ _, ?_⟩
      intro p hp q hq hvp hvq
      simp only [List.mem_singleton] at hq
      subst hq
      rw [hbox]
      intro hint
      exact hFP c0.space hspmem p hp hvp
        (boxIntersect_mono hsub (boxIntersect_symm hint))
  · rw [hstep]
    refine ⟨hFS, ?_, ?_, ?_, ?_⟩
    · intro p hp
      rcases List.mem_append.mp hp with h | h
      · exact hPD p h
      · simp only [List.mem_singleton] at h
        subst h
        exact ⟨h1, h2, h3⟩
    · intro p hp hval
      rcases List.mem_append.mp hp with h | h
      · exact hPC p h hval
      · simp only [List.mem_singleton] at h
        subst h
        exact absurd hval (by simp [invalidItemOf])
    · intro b hb p hp hval
      rcases List.mem_append.mp hp with h | h
      · exact hFP b hb p h hval
      · simp only [List.mem_singleton] at h
        subst h
        exact absurd hval (by simp [invalidItemOf])
    · rw [List.pairwise_append]
      refine ⟨hPP, List.pairwise_singleton _ _, ?_⟩
      intro p hp q hq hvp hvq
      simp only [List.mem_singleton] at hq
      subst hq
      exact absurd hvq (by simp [invalidItemOf])

/-- Folding the placement step preserves the trial invariant. -/
lemma foldl_packStep_trialInv {c : Dimensions} :
    ∀ (l : List CargoItem) (st : TrialState), (∀ it ∈ l, posDims it) → trialInv c st →
      trialInv c (l.foldl packStep st) := by
  intro l
  induction l with
  | nil => intro st _ h; exact h
  | cons item rest ih =>
    intro st hpd hinv
    rw [List.foldl_cons]
    exact ih _ (fun it hit => hpd it (by simp [hit]))
      (packStep_trialInv (hpd item (by simp)) hinv)

/-- The initial trial state satisfies the trial invariant whenever the
container dimensions are positive. -/
lemma initial_trialInv {c : Dimensions}
    (hc : 0 < c.length ∧ 0 < c.height ∧ 0 < c.width) :
    trialInv c ⟨initialFreeSpaces c, [], 0⟩ := by
  refine ⟨?_, by intro p hp; exact absurd hp (List.not_mem_nil _),
    by intro p hp; exact absurd hp (List.not_mem_nil _),
    by intro b hb p hp; exact absurd hp (List.not_mem_nil _), List.Pairwise.nil⟩
  intro b hb
  simp only [initialFreeSpaces, List.mem_singleton] at hb
  subst hb
  exact ⟨subBox_refl _, hc.1, hc.2.1, hc.2.2⟩

/-- Sorting does not change membership. -/
lemma mem_sortItems {jsSin : ℚ → ℚ} {strategy : SortStrategy} {randomSeed : ℚ}
    {items : List CargoItem} {it : CargoItem} :
    it ∈ sortItems jsSin strategy randomSeed items ↔ it ∈ items :=
  (List.mergeSort_perm items _).mem_iff

/-- The placement fold appends exactly one item per input, preserving id
order. -/
lemma foldl_packStep_map_id :
    ∀ (l : List CargoItem) (st : TrialState),
      ((l.foldl packStep st).placedItems).map (fun it => it.id) =
        (st.placedItems.map (fun it => it.id)) ++ l.map (fun it => it.id) := by
  intro l
  induction l with
  | nil => intro st; simp
  | cons item rest ih =>
    intro st
    rw [List.foldl_cons, ih]
    rcases packStep_cases st item with ⟨c0, hfind, hstep⟩ | ⟨hfind, hstep⟩ <;>
      rw [hstep] <;> simp [placedItemOf, invalidItemOf]

/-- The placement fold's output length. -/
lemma foldl_packStep_length (l : List CargoItem) (st : TrialState) :
    ((l.foldl packStep st).placedItems).length = st.placedItems.length + l.length := by
  have h := congrArg List.length (foldl_packStep_map_id l st)
  simpa using h

/-- The staging layout preserves the item ids in order. -/
lemma arrangeStagingGo_map_id :
    ∀ (items : List CargoItem) (curX curZ maxZ : ℚ),
      (arrangeStagingGo curX curZ maxZ items).map (fun it => it.id) =
        items.map (fun it => it.id) := by
  intro items
  induction items with
  | nil => intro curX curZ maxZ; rfl
  | cons item rest ih =>
    intro curX curZ maxZ
    rw [arrangeStagingGo]
    split <;> simp [ih]

/-- The staging layout: every output is valid, on the floor, beyond the
container's far z face, and outputs are mutually non-overlapping. -/
lemma arrangeStaging_spec (items : List CargoItem) (container : Dimensions)
    (hpos : ∀ it ∈ items, 0 < it.dimensions.length) :
    (∀ it ∈ arrangeStaging items container,
      it.isValid = true ∧ it.position.y = 0 ∧ container.width + 1500 ≤ it.position.z) ∧
    List.Pairwise (fun a b => ¬ overlapsEps (itemBox a) (itemBox b))
      (arrangeStaging items container) := by
  obtain ⟨hprops, hpair⟩ :=
    arrangeStagingGo_spec items 0 (container.width + 1500) 0 (le_refl 0) hpos
  exact ⟨fun it hit =>
    ⟨(hprops it hit).1, (hprops it hit).2.1, (hprops it hit).2.2.1⟩, hpair⟩

/-- The per-trial invariant consequences on the trial's output items. -/
lemma runPackingTrial_inv (jsSin : ℚ → ℚ) (items : List CargoItem)
    (container : Dimensions) (strategy : SortStrategy) (randomSeed : ℚ)
    (hitems : ∀ it ∈ items, posDims it)
    (hc : 0 < container.length ∧ 0 < container.height ∧ 0 < container.width) :
    (∀ p ∈ (runPackingTrial jsSin items container strategy randomSeed).items, posDims p) ∧
    (∀ p ∈ (runPackingTrial jsSin items container strategy randomSeed).items,
      p.isValid = true → subBox (itemBox p) (containerBox container)) ∧
    List.Pairwise (fun p q => p.isValid = true → q.isValid = true →
      ¬ boxIntersect (itemBox p) (itemBox q))
      (runPackingTrial jsSin items container strategy randomSeed).items := by
  have hfold := foldl_packStep_trialInv (sortItems jsSin strategy randomSeed items)
    ⟨initialFreeSpaces container, [], 0⟩
    (fun it hit => hitems it (mem_sortItems.mp hit)) (initial_trialInv hc)
  exact ⟨hfold.2.1, hfold.2.2.1, hfold.2.2.2.2⟩

end Packing

namespace Packing

/-! ## C9: the staging arranger -/

/-- C9: `arrangeStaging` places every item on the floor (y = 0), beyond
the container's far z face at the fixed offset 1500, flags every staged
item valid, preserves the number of items, and produces mutually
non-overlapping positions. -/
theorem arrangeStaging_theorem (items : List CargoItem) (container : Dimensions)
    (hpos : ∀ it ∈ items, 0 < it.dimensions.length) :
    (arrangeStaging items container).length = items.length ∧
    (∀ it ∈ arrangeStaging items container,
      it.isValid = true ∧ it.position.y = 0 ∧ container.width + 1500 ≤ it.position.z) ∧
    List.Pairwise (fun a b => ¬ overlapsEps (itemBox a) (itemBox b))
      (arrangeStaging items container) :=
  ⟨arrangeStagingGo_length items 0 (container.width + 1500) 0,
   (arrangeStaging_spec items container hpos).1,
   (arrangeStaging_spec items container hpos).2⟩

/-- Witness for C9 at two concrete items. -/
theorem arrangeStaging_theorem_witness :
    (arrangeStaging [⟨"a", ⟨200, 300, 400⟩, ⟨5, 6, 7⟩, false⟩,
        ⟨"b", ⟨100, 100, 100⟩, ⟨0, 0, 0⟩, false⟩] ⟨1000, 1000, 1000⟩).length = 2 ∧
    (∀ it ∈ arrangeStaging [⟨"a", ⟨200, 300, 400⟩, ⟨5, 6, 7⟩, false⟩,
        ⟨"b", ⟨100, 100, 100⟩, ⟨0, 0, 0⟩, false⟩] ⟨1000, 1000, 1000⟩,
      it.isValid = true ∧ it.position.y = 0 ∧
        (⟨1000, 1000, 1000⟩ : Dimensions).width + 1500 ≤ it.position.z) ∧
    List.Pairwise (fun a b => ¬ overlapsEps (itemBox a) (itemBox b))
      (arrangeStaging [⟨"a", ⟨200, 300, 400⟩, ⟨5, 6, 7⟩, false⟩,
        ⟨"b", ⟨100, 100, 100⟩, ⟨0, 0, 0⟩, false⟩] ⟨1000, 1000, 1000⟩) :=
  arrangeStaging_theorem
    [⟨"a", ⟨200, 300, 400⟩, ⟨5, 6, 7⟩, false⟩, ⟨"b", ⟨100, 100, 100⟩, ⟨0, 0, 0⟩, false⟩]
    ⟨1000, 1000, 1000⟩
    (by
      intro it hit
      rcases List.mem_cons.mp hit with h | h
      · subst h; norm_num
      · simp only [List.mem_singleton] at h; subst h; norm_num)

/-! ## C10: the free-space invariant -/

/-- C10: throughout every packing trial each free-space box lies in the
container with positive extents: the initial whole-container box
satisfies this, the split step and the cleanup preserve it, and the
free-space list after processing any number of items satisfies it. -/
theorem freeSpaces_invariant (jsSin : ℚ → ℚ) (items : List CargoItem)
    (container : Dimensions) (strategy : SortStrategy) (randomSeed : ℚ)
    (hitems : ∀ it ∈ items, 0 < it.dimensions.length ∧ 0 < it.dimensions.width ∧
      0 < it.dimensions.height)
    (hc : 0 < container.length ∧ 0 < container.height ∧ 0 < container.width) :
    (∀ b ∈ initialFreeSpaces container, spaceInv container b) ∧
    (∀ (spaces : List Box) (pB : Box), (∀ b ∈ spaces, spaceInv container b) →
      ∀ b ∈ splitSpaces spaces pB, spaceInv container b) ∧
    (∀ (spaces : List Box) (b : Box), b ∈ cleanupSpaces spaces → b ∈ spaces) ∧
    (∀ n : ℕ, ∀ b ∈ (((sortItems jsSin strategy randomSeed items).take n).foldl packStep
        ⟨initialFreeSpaces container, [], 0⟩).freeSpaces,
      0 ≤ b.x ∧ 0 ≤ b.y ∧ 0 ≤ b.z ∧ 0 < b.l ∧ 0 < b.h ∧ 0 < b.w ∧
      b.x + b.l ≤ container.length ∧ b.y + b.h ≤ container.height ∧
      b.z + b.w ≤ container.width) := by
  refine ⟨fun b hb => (initial_trialInv hc).1 b hb, ?_,
    fun spaces b hb => cleanup_subset hb, ?_⟩
  · intro spaces pB hall b hb
    obtain ⟨fs, hfs, hbf⟩ := mem_splitSpaces hb
    exact ⟨subBox_trans (splitOne_subBox hbf) (hall fs hfs).1,
      splitOne_posExt (hall fs hfs).2 hbf⟩
  · intro n b hb
    have hfold := foldl_packStep_trialInv
      ((sortItems jsSin strategy randomSeed items).take n)
      ⟨initialFreeSpaces container, [], 0⟩
      (fun it hit => hitems it (mem_sortItems.mp ((List.take_sublist n _).subset hit)))
      (initial_trialInv hc)
    obtain ⟨hsub, hpos⟩ := hfold.1 b hb
    obtain ⟨s1, s2, s3, s4, s5, s6⟩ := hsub
    obtain ⟨e1, e2, e3⟩ := hpos
    simp only [containerBox] at s1 s2 s3 s4 s5 s6
    exact ⟨s1, s3, s5, e1, e2, e3, by linarith, by linarith, by linarith⟩

/-- Witness for C10 at a concrete run: the initial whole-container box
satisfies the invariant. -/
theorem freeSpaces_invariant_witness :
    spaceInv ⟨1000, 1000, 1000⟩ ⟨0, 0, 0, 1000, 1000, 1000⟩ :=
  (freeSpaces_invariant (fun _ => 0) [⟨"a", ⟨600, 600, 600⟩, ⟨0, 0, 0⟩, true⟩]
    ⟨1000, 1000, 1000⟩ SortStrategy.VOLUME 0
    (by
      intro it hit
      simp only [List.mem_singleton] at hit
      subst hit
      norm_num)
    (by norm_num)).1 ⟨0, 0, 0, 1000, 1000, 1000⟩ (List.mem_singleton.mpr rfl)

/-! ## C3: the battery of trials and the selection rule -/

/-- C3: `autoPack` runs exactly seven trials — VOLUME, FOOTPRINT,
MAX_DIM once each, then RANDOM_WEIGHTED with the four fixed seeds 1, 42,
123, 999 — and keeps the trial with the strictly greatest packed volume,
the earliest trial in battery order winning ties; the winner's packed
volume is at least every other trial's, and the returned item list is
the winner's valid items followed by its staged invalid items. -/
theorem autoPack_battery (jsSin : ℚ → ℚ) (items : List CargoItem)
    (container : Dimensions) :
    trialConfigs = [(SortStrategy.VOLUME, 0), (SortStrategy.FOOTPRINT, 0),
      (SortStrategy.MAX_DIM, 0), (SortStrategy.RANDOM_WEIGHTED, 1),
      (SortStrategy.RANDOM_WEIGHTED, 42), (SortStrategy.RANDOM_WEIGHTED, 123),
      (SortStrategy.RANDOM_WEIGHTED, 999)] ∧
    (batteryResults jsSin items container).length = 7 ∧
    ∃ i : ℕ, ∃ hi : i < (batteryResults jsSin items container).length,
      selectBest (batteryResults jsSin items container) =
        some ((batteryResults jsSin items container).get ⟨i, hi⟩) ∧
      (∀ j : ℕ, ∀ hj : j < (batteryResults jsSin items container).length,
        ((batteryResults jsSin items container).get ⟨j, hj⟩).packedVolume ≤
        ((batteryResults jsSin items container).get ⟨i, hi⟩).packedVolume) ∧
      (∀ j : ℕ, ∀ hj : j < (batteryResults jsSin items container).length, j < i →
        ((batteryResults jsSin items container).get ⟨j, hj⟩).packedVolume <
        ((batteryResults jsSin items container).get ⟨i, hi⟩).packedVolume) ∧
      autoPack jsSin items container =
        ((batteryResults jsSin items container).get ⟨i, hi⟩).items.filter
            (fun it => it.isValid) ++
          arrangeStaging (((batteryResults jsSin items container).get ⟨i, hi⟩).items.filter
              (fun it => !it.isValid)) container := by
  refine ⟨rfl, by simp [batteryResults, trialConfigs], ?_⟩
  cases hcons : batteryResults jsSin items container with
  | nil => simp [batteryResults, trialConfigs] at hcons
  | cons r rs =>
    obtain ⟨i, hi, hsel, hmax, hfirst⟩ := selectBest_spec r rs
    refine ⟨i, hi, hsel, hmax, hfirst, ?_⟩
    rw [autoPack_eq, hcons, hsel]

/-! ## C2: length and id preservation -/

/-- C2: the item list returned by `autoPack` has exactly the length of
the input list, and carries exactly the input ids (as a multiset): every
input item appears, placed or staged, none duplicated or dropped. -/
theorem autoPack_length (jsSin : ℚ → ℚ) (items : List CargoItem)
    (container : Dimensions) :
    (autoPack jsSin items container).length = items.length ∧
    ((autoPack jsSin items container).map (fun it => it.id)).Perm
      (items.map (fun it => it.id)) := by
  have htrial : ∀ (strategy : SortStrategy) (randomSeed : ℚ),
      ((runPackingTrial jsSin items container strategy randomSeed).items.map
        (fun it => it.id)).Perm (items.map (fun it => it.id)) := by
    intro strategy randomSeed
    have h1 : (runPackingTrial jsSin items container strategy randomSeed).items =
        ((sortItems jsSin strategy randomSeed items).foldl packStep
          ⟨initialFreeSpaces container, [], 0⟩).placedItems := rfl
    rw [h1, foldl_packStep_map_id]
    simp only [List.map_nil, List.nil_append]
    exact (List.mergeSort_perm items _).map _
  cases hcons : batteryResults jsSin items container with
  | nil => simp [batteryResults, trialConfigs] at hcons
  | cons r rs =>
    obtain ⟨i, hi, hsel, -, -⟩ := selectBest_spec r rs
    have hbest : ∃ strategy randomSeed, (r :: rs).get ⟨i, hi⟩ =
        runPackingTrial jsSin items container strategy randomSeed := by
      have hmem : (r :: rs).get ⟨i, hi⟩ ∈ batteryResults jsSin items container := by
        rw [hcons]
        exact List.get_mem _ _ _
      obtain ⟨t, ht, heq⟩ := List.mem_map.mp hmem
      exact ⟨t.1, t.2, heq.symm⟩
    obtain ⟨strategy, randomSeed, hbesteq⟩ := hbest
    have hap : autoPack jsSin items container =
        ((r :: rs).get ⟨i, hi⟩).items.filter (fun it => it.isValid) ++
          arrangeStaging (((r :: rs).get ⟨i, hi⟩).items.filter (fun it => !it.isValid))
            container := by
      rw [autoPack_eq, hcons, hsel]
    have hids : (autoPack jsSin items container).map (fun it => it.id) =
        (((r :: rs).get ⟨i, hi⟩).items.filter (fun it => it.isValid)).map (fun it => it.id) ++
          (((r :: rs).get ⟨i, hi⟩).items.filter (fun it => !it.isValid)).map
            (fun it => it.id) := by
      rw [hap, List.map_append]
      congr 1
      exact arrangeStagingGo_map_id _ 0 _ 0
    have hperm : ((autoPack jsSin items container).map (fun it => it.id)).Perm
        (((r :: rs).get ⟨i, hi⟩).items.map (fun it => it.id)) := by
      rw [hids, ← List.map_append]
      exact (List.filter_append_perm _ _).map _
    have hfull : ((autoPack jsSin items container).map (fun it => it.id)).Perm
        (items.map (fun it => it.id)) := by
      refine hperm.trans ?_
      rw [hbesteq]
      exact htrial strategy randomSeed
    refine ⟨?_, hfull⟩
    have := hfull.length_eq
    simpa using this

/-! ## C4: the placement scorer -/

/-- C4: the placement scorer's candidates are exactly the (space,
orientation) pairs where each of the item's extents fits the space's
corresponding extent (height never rotates) and the rotated orientation
is attempted only when length ≠ width; every candidate's score is
`y*1000000 + z*1000 + x` of its space; and the search returns the
candidate of strictly lowest score, the first found winning exact ties
in the candidate order (free-space list order, unrotated before rotated
for the same space). -/
theorem findBestPlacement_spec (item : CargoItem) (spaces : List Box) :
    (∀ s : Box, spaceScore s = s.y * 1000000 + s.z * 1000 + s.x) ∧
    (∀ c : Candidate, c ∈ candidateList item spaces ↔
      (∃ h : c.index < spaces.length, c.space = spaces.get ⟨c.index, h⟩) ∧
      ((c.rotated = false ∧ item.dimensions.length ≤ c.space.l ∧
          item.dimensions.height ≤ c.space.h ∧ item.dimensions.width ≤ c.space.w) ∨
       (c.rotated = true ∧ item.dimensions.length ≠ item.dimensions.width ∧
          item.dimensions.width ≤ c.space.l ∧ item.dimensions.height ≤ c.space.h ∧
          item.dimensions.length ≤ c.space.w))) ∧
    (findBestPlacement item spaces = none ↔ candidateList item spaces = []) ∧
    (∀ c : Candidate, findBestPlacement item spaces = some c →
      ∃ k : ℕ, ∃ hk : k < (candidateList item spaces).length,
        c = (candidateList item spaces).get ⟨k, hk⟩ ∧
        (∀ j : ℕ, ∀ hj : j < (candidateList item spaces).length,
          spaceScore c.space ≤
            spaceScore ((candidateList item spaces).get ⟨j, hj⟩).space) ∧
        (∀ j : ℕ, ∀ hj : j < (candidateList item spaces).length, j < k →
          spaceScore c.space <
            spaceScore ((candidateList item spaces).get ⟨j, hj⟩).space)) := by
  refine ⟨fun s => rfl, fun c => mem_candidateList,
    findBestPlacement_none_iff item spaces, ?_⟩
  intro c hsome
  rw [findBestPlacement_eq_foldl] at hsome
  cases hcl : candidateList item spaces with
  | nil =>
    rw [hcl] at hsome
    exact absurd hsome (by simp)
  | cons c0 cs =>
    rw [hcl, List.foldl_cons, show tryCandidate c0 none = some c0 from rfl,
      tryCandidate_foldl] at hsome
    obtain ⟨k, hk, heq, hmin, hfirst⟩ :=
      foldl_keepMin_spec (fun cc : Candidate => spaceScore cc.space) cs c0
    have hc : c = (c0 :: cs).get ⟨k, hk⟩ := by
      have h2 := Option.some.inj hsome
      rw [← h2]
      exact heq
    refine ⟨k, hk, hc, ?_, ?_⟩
    · intro j hj
      have h3 : spaceScore ((c0 :: cs).get ⟨k, hk⟩).space ≤
          spaceScore ((c0 :: cs).get ⟨j, hj⟩).space := hmin j hj
      rw [hc]
      exact h3
    · intro j hj hjk
      have h3 : spaceScore ((c0 :: cs).get ⟨k, hk⟩).space <
          spaceScore ((c0 :: cs).get ⟨j, hj⟩).space := hfirst j hj hjk
      rw [hc]
      exact h3

/-- Witness for C4: a 600-cube against the whole-container space picks
the unrotated placement at index 0. -/
theorem findBestPlacement_spec_witness :
    ∃ k : ℕ, ∃ hk : k < (candidateList ⟨"a", ⟨600, 600, 600⟩, ⟨0, 0, 0⟩, true⟩
        [⟨0, 0, 0, 1000, 1000, 1000⟩]).length,
      (⟨0, ⟨0, 0, 0, 1000, 1000, 1000⟩, false⟩ : Candidate) =
        (candidateList ⟨"a", ⟨600, 600, 600⟩, ⟨0, 0, 0⟩, true⟩
          [⟨0, 0, 0, 1000, 1000, 1000⟩]).get ⟨k, hk⟩ ∧
      (∀ j : ℕ, ∀ hj : j < (candidateList ⟨"a", ⟨600, 600, 600⟩, ⟨0, 0, 0⟩, true⟩
          [⟨0, 0, 0, 1000, 1000, 1000⟩]).length,
        spaceScore (⟨0, 0, 0, 1000, 1000, 1000⟩ : Box) ≤
          spaceScore ((candidateList ⟨"a", ⟨600, 600, 600⟩, ⟨0, 0, 0⟩, true⟩
            [⟨0, 0, 0, 1000, 1000, 1000⟩]).get ⟨j, hj⟩).space) ∧
      (∀ j : ℕ, ∀ hj : j < (candidateList ⟨"a", ⟨600, 600, 600⟩, ⟨0, 0, 0⟩, true⟩
          [⟨0, 0, 0, 1000, 1000, 1000⟩]).length, j < k →
        spaceScore (⟨0, 0, 0, 1000, 1000, 1000⟩ : Box) <
          spaceScore ((candidateList ⟨"a", ⟨600, 600, 600⟩, ⟨0, 0, 0⟩, true⟩
            [⟨0, 0, 0, 1000, 1000, 1000⟩]).get ⟨j, hj⟩).space) :=
  (findBestPlacement_spec ⟨"a", ⟨600, 600, 600⟩, ⟨0, 0, 0⟩, true⟩
    [⟨0, 0, 0, 1000, 1000, 1000⟩]).2.2.2
    ⟨0, ⟨0, 0, 0, 1000, 1000, 1000⟩, false⟩ (by decide)

/-! ## C1: valid items never overlap -/

/-- C1: for positive item and container dimensions (the core's stated
preconditions), any two items flagged valid in the list returned by
`autoPack` have AABBs that do not overlap by more than the epsilon
tolerance (touching faces permitted). -/
theorem autoPack_no_overlap (jsSin : ℚ → ℚ) (items : List CargoItem)
    (container : Dimensions)
    (hitems : ∀ it ∈ items, 0 < it.dimensions.length ∧ 0 < it.dimensions.width ∧
      0 < it.dimensions.height)
    (hc : 0 < container.length ∧ 0 < container.height ∧ 0 < container.width) :
    List.Pairwise (fun a b => a.isValid = true → b.isValid = true →
      ¬ overlapsEps (itemBox a) (itemBox b)) (autoPack jsSin items container) := by
  cases hcons : batteryResults jsSin items container with
  | nil => simp [batteryResults, trialConfigs] at hcons
  | cons r rs =>
    obtain ⟨i, hi, hsel, -, -⟩ := selectBest_spec r rs
    have hap : autoPack jsSin items container =
        ((r :: rs).get ⟨i, hi⟩).items.filter (fun it => it.isValid) ++
          arrangeStaging (((r :: rs).get ⟨i, hi⟩).items.filter (fun it => !it.isValid))
            container := by
      rw [autoPack_eq, hcons, hsel]
    have hbest : ∃ strategy randomSeed, (r :: rs).get ⟨i, hi⟩ =
        runPackingTrial jsSin items container strategy randomSeed := by
      have hmem : (r :: rs).get ⟨i, hi⟩ ∈ batteryResults jsSin items container := by
        rw [hcons]
        exact List.get_mem _ _ _
      obtain ⟨t, ht, heq⟩ := List.mem_map.mp hmem
      exact ⟨t.1, t.2, heq.symm⟩
    obtain ⟨strategy, randomSeed, hbesteq⟩ := hbest
    obtain ⟨hPD, hPC, hPP⟩ :=
      runPackingTrial_inv jsSin items container strategy randomSeed hitems hc
    rw [hap, hbesteq]
    have hposlen : ∀ it ∈ (runPackingTrial jsSin items container strategy
        randomSeed).items.filter (fun it => !it.isValid), 0 < it.dimensions.length :=
      fun it hit => (hPD it (List.mem_of_mem_filter hit)).1
    obtain ⟨hstgP, hstgPair⟩ := arrangeStaging_spec
      ((runPackingTrial jsSin items container strategy randomSeed).items.filter
        (fun it => !it.isValid)) container hposlen
    rw [List.pairwise_append]
    refine ⟨?_, ?_, ?_⟩
    · exact (List.Pairwise.sublist (List.filter_sublist _) hPP).imp
        (fun h hva hvb hov => h hva hvb (boxIntersect_of_overlapsEps hov))
    · exact hstgPair.imp (fun h _ _ => h)
    · intro a ha b hb hva hvb
      have hsubA := hPC a (List.mem_of_mem_filter ha) hva
      have hbz := (hstgP b hb).2.2
      intro hov
      obtain ⟨-, -, -, -, o5, o6⟩ := hov
      obtain ⟨-, -, -, -, -, s6⟩ := hsubA
      simp only [itemBox, containerBox] at o6 s6
      linarith

/-- Witness for C1 at a concrete instance: two positive-dimension cubes
in a positive container. -/
theorem autoPack_no_overlap_witness :
    List.Pairwise (fun a b => a.isValid = true → b.isValid = true →
      ¬ overlapsEps (itemBox a) (itemBox b))
      (autoPack (fun _ => 0)
        [⟨"a", ⟨600, 600, 600⟩, ⟨0, 0, 0⟩, true⟩, ⟨"b", ⟨600, 600, 600⟩, ⟨0, 0, 0⟩, true⟩]
        ⟨1000, 1000, 1000⟩) :=
  autoPack_no_overlap (fun _ => 0)
    [⟨"a", ⟨600, 600, 600⟩, ⟨0, 0, 0⟩, true⟩, ⟨"b", ⟨600, 600, 600⟩, ⟨0, 0, 0⟩, true⟩]
    ⟨1000, 1000, 1000⟩
    (by
      intro it hit
      rcases List.mem_cons.mp hit with h | h
      · subst h; norm_num
      · simp only [List.mem_singleton] at h; subst h; norm_num)
    (by norm_num)

/-! ## C7: the interactive collision check -/

/-- C7: `checkCollision(item, others, container)` returns true iff some
coordinate of the item's corner position is below zero, or its AABB
overlaps by more than the epsilon tolerance (on all three axes) the AABB
of some other item with a different id; and the result is independent of
the container argument, there being no upper-bound check. -/
theorem checkCollision_iff (item : CargoItem) (others : List CargoItem)
    (container : Dimensions) :
    (checkCollision item others container = true ↔
      ((item.position.x < 0 ∨ item.position.y < 0 ∨ item.position.z < 0) ∨
        ∃ other ∈ others, other.id ≠ item.id ∧
          overlapsEps (itemBox item) (itemBox other))) ∧
    ∀ container2 : Dimensions,
      checkCollision item others container = checkCollision item others container2 := by
  refine ⟨?_, fun _ => rfl⟩
  unfold checkCollision checkCollisionWithCoords
  by_cases h : item.position.x < 0 ∨ item.position.y < 0 ∨ item.position.z < 0
  · rw [if_pos h]
    simpa using Or.inl h
  · rw [if_neg h]
    simp only [h, false_or, List.any_eq_true]
    constructor
    · rintro ⟨other, hmem, hval⟩
      by_cases hid : other.id = item.id
      · rw [if_pos hid] at hval; exact absurd hval (by simp [invalidItemOf])
      · rw [if_neg hid] at hval
        exact ⟨other, hmem, hid, by
          have := of_decide_eq_true hval
          exact this⟩
    · rintro ⟨other, hmem, hid, hov⟩
      refine ⟨other, hmem, ?_⟩
      rw [if_neg hid]
      exact decide_eq_true hov

/-! ## C5: the free-space split -/

/-- C5: the split pass replaces every free-space box intersecting the
placed box by at most five fragments (right and left along x, above
along y, front and behind along z), each emitted exactly when it has
positive extent on its axis; non-intersecting boxes pass through
unchanged; and no fragment lies below the placed box along y (every
fragment's y interval reaches above the placed box's bottom face). -/
theorem splitSpaces_spec (freeSpaces : List Box) (placedBox : Box) :
    splitSpaces freeSpaces placedBox = freeSpaces.flatMap (splitOne placedBox) ∧
    ∀ fs ∈ freeSpaces,
      (¬ boxIntersect fs placedBox → splitOne placedBox fs = [fs]) ∧
      (boxIntersect fs placedBox →
        splitOne placedBox fs =
          (if placedBox.x + placedBox.l < fs.x + fs.l then [fragRight placedBox fs] else []) ++
          (if placedBox.x > fs.x then [fragLeft placedBox fs] else []) ++
          (if placedBox.y + placedBox.h < fs.y + fs.h then [fragTop placedBox fs] else []) ++
          (if placedBox.z + placedBox.w < fs.z + fs.w then [fragFront placedBox fs] else []) ++
          (if placedBox.z > fs.z then [fragBack placedBox fs] else []) ∧
        (splitOne placedBox fs).length ≤ 5 ∧
        (∀ f ∈ splitOne placedBox fs, placedBox.y < f.y + f.h) ∧
        (placedBox.x + placedBox.l < fs.x + fs.l ↔ 0 < (fragRight placedBox fs).l) ∧
        (placedBox.x > fs.x ↔ 0 < (fragLeft placedBox fs).l) ∧
        (placedBox.y + placedBox.h < fs.y + fs.h ↔ 0 < (fragTop placedBox fs).h) ∧
        (placedBox.z + placedBox.w < fs.z + fs.w ↔ 0 < (fragFront placedBox fs).w) ∧
        (placedBox.z > fs.z ↔ 0 < (fragBack placedBox fs).w)) := by
  refine ⟨rfl, fun fs _ => ⟨fun hni => by rw [splitOne, if_neg hni], fun hi => ?_⟩⟩
  obtain ⟨i1, i2, i3, i4, i5, i6⟩ := hi
  have hxmax : max fs.x (placedBox.x + placedBox.l) = placedBox.x + placedBox.l :=
    max_eq_right (le_of_lt i1)
  have hymax : max fs.y (placedBox.y + placedBox.h) = placedBox.y + placedBox.h :=
    max_eq_right (le_of_lt i3)
  have hzmax : max fs.z (placedBox.z + placedBox.w) = placedBox.z + placedBox.w :=
    max_eq_right (le_of_lt i5)
  have hsplit : splitOne placedBox fs =
      (if placedBox.x + placedBox.l < fs.x + fs.l then [fragRight placedBox fs] else []) ++
      (if placedBox.x > fs.x then [fragLeft placedBox fs] else []) ++
      (if placedBox.y + placedBox.h < fs.y + fs.h then [fragTop placedBox fs] else []) ++
      (if placedBox.z + placedBox.w < fs.z + fs.w then [fragFront placedBox fs] else []) ++
      (if placedBox.z > fs.z then [fragBack placedBox fs] else []) := by
    rw [splitOne, if_pos ⟨i1, i2, i3, i4, i5, i6⟩]
  refine ⟨hsplit, ?_, ?_, ?_, ?_, ?_, ?_, ?_⟩
  · rw [hsplit]
    split_ifs <;> simp
  · intro f hf
    rw [hsplit] at hf
    simp only [List.mem_append] at hf
    have hfrag : f = fragRight placedBox fs ∨ f = fragLeft placedBox fs ∨
        f = fragTop placedBox fs ∨ f = fragFront placedBox fs ∨
        f = fragBack placedBox fs := by
      rcases hf with ((((h | h) | h) | h) | h) <;> split at h <;>
        simp only [List.mem_singleton, List.not_mem_nil] at h <;> tauto
    have hreach : ∀ g ∈ [fragRight placedBox fs, fragLeft placedBox fs, fragTop placedBox fs,
        fragFront placedBox fs, fragBack placedBox fs], g.y + g.h = fs.y + fs.h := by
      intro g hg
      simp only [List.mem_cons, List.not_mem_nil, or_false] at hg
      rcases hg with h | h | h | h | h <;> subst h <;>
        simp only [fragRight, fragLeft, fragTop, fragFront, fragBack] <;> ring
    rcases hfrag with h | h | h | h | h <;> subst h <;>
      rw [hreach _ (by simp)] <;> linarith
  · rw [fragRight, hxmax]; constructor <;> intro h <;> simp only at h ⊢ <;> linarith
  · rw [fragLeft]; constructor <;> intro h <;> simp only at h ⊢ <;> linarith
  · rw [fragTop, hymax]; constructor <;> intro h <;> simp only at h ⊢ <;> linarith
  · rw [fragFront, hzmax]; constructor <;> intro h <;> simp only at h ⊢ <;> linarith
  · rw [fragBack]; constructor <;> intro h <;> simp only at h ⊢ <;> linarith

/-- Witness for C5 at a concrete input: a 600-cube placed at the origin
of a 1000-cube free space yields at most five fragments, each reaching
above the placed box's bottom face. -/
theorem splitSpaces_spec_witness :
    (splitOne ⟨0, 0, 0, 600, 600, 600⟩ ⟨0, 0, 0, 1000, 1000, 1000⟩).length ≤ 5 ∧
    ∀ f ∈ splitOne ⟨0, 0, 0, 600, 600, 600⟩ ⟨0, 0, 0, 1000, 1000, 1000⟩,
      (0 : ℚ) < f.y + f.h := by
  have h := ((splitSpaces_spec [⟨0, 0, 0, 1000, 1000, 1000⟩] ⟨0, 0, 0, 600, 600, 600⟩).2
      ⟨0, 0, 0, 1000, 1000, 1000⟩ (List.mem_singleton.mpr rfl)).2
      (by unfold boxIntersect; norm_num)
  exact ⟨h.2.1, h.2.2.1⟩

/-! ## C8: the snapping scenario at corner (152, 0, 0) -/

/-- C8 counterexample: with the candidate corner at (152, 0, 0),
threshold 150 and a neighbour occupying x ∈ [0, 150], an item of length
100 is snapped to x = 50 (right-face-to-right-face alignment fires after
the far-face snap), not to x = 150 as the claim states for every item. -/
theorem snap_scenario_counterexample :
    (getSnappingPosition ⟨152, 0, 0⟩ ⟨100, 100, 100⟩
      [{ id := "n", dimensions := ⟨150, 100, 100⟩, position := ⟨0, 0, 0⟩, isValid := true }]
      "m" 150).x = 50 ∧ (50 : ℚ) ≠ 150 := by
  refine ⟨?_, by norm_num⟩
  unfold getSnappingPosition snapNeighbor
  norm_num [List.foldl]
  rw [if_neg (by decide : ¬(("n" : String) = "m"))]

/-- C8 amended: with the candidate corner at (152, 0, 0), threshold 150
and a single neighbour whose box starts at x = 0 with length 150, the
snap returns x = 150 (the neighbour's far face) — provided the item's
length is at least the threshold 150, so that no later alignment rule
overrides the far-face snap.  (The counterexample above shows the claim
fails for shorter items.) -/
theorem snap_scenario_amended (dims : Dimensions) (neighbor : CargoItem) (selfId : String)
    (hx : neighbor.position.x = 0) (hl : neighbor.dimensions.length = 150)
    (hid : neighbor.id ≠ selfId) (hlen : 150 ≤ dims.length) :
    (getSnappingPosition ⟨152, 0, 0⟩ dims [neighbor] selfId 150).x = 150 := by
  have h1 : ¬(|(152 : ℚ)| < 150) := by norm_num
  have h2 : |(152 : ℚ) - (0 + 150)| < 150 := by norm_num
  have h3 : ¬(|(0 : ℚ) + 150 + dims.length - 0| < 150) := by
    rw [abs_of_nonneg (by linarith)]; linarith
  have h4 : ¬(|(0 : ℚ) + 150 - 0| < 150) := by norm_num
  have h5 : ¬(|(0 : ℚ) + 150 + dims.length - (0 + 150)| < 150) := by
    rw [abs_of_nonneg (by linarith)]; linarith
  unfold getSnappingPosition snapNeighbor
  simp only [List.foldl, if_neg hid, hx, hl, if_neg h1, if_pos h2, if_neg h3, if_neg h4,
    if_neg h5]
  norm_num

/-! ## C6: the cleanup pass -/

/-- C6: cleanup first discards every box with an extent below the fixed
minimum 50; among the survivors of that filter it discards every box
fully contained (inclusive bounds) in a survivor at another index; and
every box of the result is an input box with all extents at least 50
contained in no other box of the result. -/
theorem cleanupSpaces_spec (spaces : List Box) :
    (∀ b ∈ cleanupSpaces spaces,
      b ∈ spaces ∧ (50 : ℚ) ≤ b.l ∧ (50 : ℚ) ≤ b.h ∧ (50 : ℚ) ≤ b.w ∧
      ∀ c ∈ cleanupSpaces spaces, c ≠ b → ¬ contains c b) ∧
    (∀ b ∈ spaces, (b.l < 50 ∨ b.h < 50 ∨ b.w < 50) → b ∉ cleanupSpaces spaces) ∧
    (∀ b ∈ survivingSpaces spaces, ∀ c ∈ survivingSpaces spaces,
      c ≠ b → contains c b → b ∉ cleanupSpaces spaces) := by
  have hsize : ∀ b ∈ cleanupSpaces spaces,
      (50 : ℚ) ≤ b.l ∧ (50 : ℚ) ≤ b.h ∧ (50 : ℚ) ≤ b.w := fun b hb =>
    surviving_sizeOk (cleanup_subset_surviving hb)
  refine ⟨fun b hb => ⟨cleanup_subset hb, (hsize b hb).1, (hsize b hb).2.1,
    (hsize b hb).2.2, ?_⟩, ?_, ?_⟩
  · intro c hc hne hcont
    obtain ⟨i, hi, hgi, hno⟩ := cleanup_mem_elim hb
    have hcsv : c ∈ survivingSpaces spaces := cleanup_subset_surviving hc
    obtain ⟨j, hgj⟩ := List.mem_iff_get.mp hcsv
    have hne' : j.1 ≠ i := by
      intro hji
      apply hne
      rw [← hgj, ← hgi]
      congr 1
      exact Fin.ext hji
    exact hno j.1 j.2 hne' (hgj ▸ hcont)
  · intro b hb hsmall hmem
    rcases hsmall with h | h | h
    · exact absurd (hsize b hmem).1 (by linarith)
    · exact absurd (hsize b hmem).2.1 (by linarith)
    · exact absurd (hsize b hmem).2.2 (by linarith)
  · intro b hb c hc hne hcont hmem
    obtain ⟨i, hi, hgi, hno⟩ := cleanup_mem_elim hmem
    obtain ⟨j, hgj⟩ := List.mem_iff_get.mp hc
    have hne' : j.1 ≠ i := by
      intro hji
      apply hne
      rw [← hgj, ← hgi]
      congr 1
      exact Fin.ext hji
    exact hno j.1 j.2 hne' (hgj ▸ hcont)

/-- Witness for C6 at a concrete input: a sliver box is discarded, a
contained box is discarded, and the surviving box is subject to the
result-level guarantees. -/
theorem cleanupSpaces_spec_witness :
    (⟨0, 0, 0, 10, 1000, 1000⟩ : Box) ∈
        ([⟨0, 0, 0, 10, 1000, 1000⟩, ⟨0, 0, 0, 1000, 1000, 1000⟩] : List Box) ∧
    (⟨0, 0, 0, 10, 1000, 1000⟩ : Box).l < 50 ∧
    (⟨0, 0, 0, 10, 1000, 1000⟩ : Box) ∉
      cleanupSpaces [⟨0, 0, 0, 10, 1000, 1000⟩, ⟨0, 0, 0, 1000, 1000, 1000⟩] := by
  refine ⟨by simp, by norm_num, ?_⟩
  exact (cleanupSpaces_spec [⟨0, 0, 0, 10, 1000, 1000⟩, ⟨0, 0, 0, 1000, 1000, 1000⟩]).2.1
    ⟨0, 0, 0, 10, 1000, 1000⟩ (by simp) (Or.inl (by norm_num))

/-- Witness for the amended C8 theorem at a concrete item of length 200. -/
theorem snap_scenario_amended_witness :
    (getSnappingPosition ⟨152, 0, 0⟩ ⟨200, 100, 100⟩
      [{ id := "n", dimensions := ⟨150, 100, 100⟩, position := ⟨0, 0, 0⟩, isValid := true }]
      "m" 150).x = 150 :=
  snap_scenario_amended ⟨200, 100, 100⟩
    { id := "n", dimensions := ⟨150, 100, 100⟩, position := ⟨0, 0, 0⟩, isValid := true }
    "m" rfl rfl (by decide) (by norm_num)

end Packing
